import Mathlib

/-!
# Transporter: a verification development of the remote-proxy dispatch protocol

The repository ships the test suite of its core (`src/unnamed/part_000`) and
two thin satellites, but not the core module (`createModule` / `useModule`,
proxy, marshaller, dispatcher) itself.  The definitions below therefore embed
the protocol as the specification describes it, checked against the behaviour
the test suite pins down.  Numbers are modelled as integers (the tests only
exercise integral numbers); the codec is deliberately external to the core
(spec §1), so the transport is modelled as carrying structured messages.
-/

set_option linter.unusedVariables false
set_option linter.unnecessarySimpa false

namespace Transporter

/-- Modelled from the spec: the value domain of §4.1 (the core implementation
is absent from the sources) — undefined, null, booleans, numbers, strings,
finite arrays, plain string-keyed aggregates — together with the function
forms the protocol introduces: `func fid` is a local function (an index into
the owning endpoint's function environment), `remoteFunc h` is a proxy
materialized from an inbound handle reference (§4.5), and `handleRef h` is
the wire placeholder for handle `h` (§3 HandleRef). -/
inductive Value where
  | undef
  | null
  | bool (b : Bool)
  | num (n : Int)
  | str (s : String)
  | arr (items : List Value)
  | obj (fields : List (String × Value))
  | func (fid : Nat)
  | remoteFunc (h : Nat)
  | handleRef (h : Nat)

/-- The behaviours of the concrete functions the test suite exposes: constant
functions (including `jest.fn()`), the variadic numeric sum, a function
returning its `this` binding, `(arg) => ({ key: arg })`, and a function that
invokes its `i`-th argument with further (possibly function) arguments and
returns that call's result. -/
inductive FnBehavior where
  | const (v : Value)
  | sumArgs
  | returnThis
  | echoObj (key : String)
  | callArg (i : Nat) (extra : List Value)

/-- A handle's bound target: a local function, or a forwarder to a handle
owned by the peer (a proxy that was marshalled back out). -/
inductive HTarget where
  | fn (fid : Nat)
  | fwd (peerHandle : Nat)
deriving DecidableEq, Repr

/-- Modelled from the spec: a HandleTable entry (§3) — id, bound target and
reference count. -/
structure HandleEntry where
  id : Nat
  target : HTarget
  refs : Nat
deriving DecidableEq, Repr

/-- Modelled from the spec: one side of the transport (§4.7) — its namespace,
its exported root, its local function environment, its handle table with the
next id to allocate, and a log of local function invocations (the embedding's
stand-in for the test suite's call spies). -/
structure Endpoint where
  ns : Option String
  root : Value
  env : List FnBehavior
  table : List HandleEntry
  nextHandle : Nat
  callLog : List (Nat × List Value)

/-- The id already bound to a target, if any (§3: a function marshalled
outbound multiple times reuses the same id). -/
def findHandle (t : List HandleEntry) (tgt : HTarget) : Option Nat :=
  (t.find? (fun en => en.target = tgt)).map (fun en => en.id)

/-- Modelled from the spec: §4.2 resolve — the target bound to an id. -/
def resolveHandle (t : List HandleEntry) (h : Nat) : Option HTarget :=
  (t.find? (fun en => en.id = h)).map (fun en => en.target)

/-- Modelled from the spec: §4.2 allocate with the §3 deduplication invariant
— an existing binding reuses its id, otherwise a fresh monotonically
allocated id is bound with refs = 1. -/
def allocHandle (e : Endpoint) (tgt : HTarget) : Nat × Endpoint :=
  match findHandle e.table tgt with
  | some h => (h, e)
  | none =>
      (e.nextHandle,
        { e with
            table := ⟨e.nextHandle, tgt, 1⟩ :: e.table
            nextHandle := e.nextHandle + 1 })

/-- Modelled from the spec: §4.2 retain. -/
def retainHandle (e : Endpoint) (h : Nat) : Endpoint :=
  { e with
      table := e.table.map fun en =>
        if en.id = h then { en with refs := en.refs + 1 } else en }

/-- Modelled from the spec: §4.2 release — the count drops and the entry is
removed when it reaches zero. -/
def releaseHandle (e : Endpoint) (h : Nat) : Endpoint :=
  { e with
      table :=
        (e.table.map fun en =>
            if en.id = h then { en with refs := en.refs - 1 } else en).filter
          (fun en => en.refs ≠ 0) }

mutual

/-- Modelled from the spec: the outbound walk of the Marshaller (§4.5) —
primitives map to themselves, aggregates keep their shape, a function is
promoted to the handle table and replaced by a handle reference, and a proxy
marshalled back out is registered as a forwarding handle.  A wire placeholder
is not itself in the outbound domain. -/
def marshal (e : Endpoint) : Value → Option (Value × Endpoint)
  | .undef => some (.undef, e)
  | .null => some (.null, e)
  | .bool b => some (.bool b, e)
  | .num n => some (.num n, e)
  | .str s => some (.str s, e)
  | .arr items =>
      match marshalList e items with
      | some (ws, e') => some (.arr ws, e')
      | none => none
  | .obj fields =>
      match marshalFields e fields with
      | some (ws, e') => some (.obj ws, e')
      | none => none
  | .func fid =>
      let he := allocHandle e (.fn fid)
      some (.handleRef he.1, he.2)
  | .remoteFunc h =>
      let he := allocHandle e (.fwd h)
      some (.handleRef he.1, he.2)
  | .handleRef _ => none

/-- The outbound walk over the items of an array, threading the endpoint. -/
def marshalList (e : Endpoint) : List Value → Option (List Value × Endpoint)
  | [] => some ([], e)
  | v :: vs =>
      match marshal e v with
      | some (w, e') =>
          match marshalList e' vs with
          | some (ws, e'') => some (w :: ws, e'')
          | none => none
      | none => none

/-- The outbound walk over the fields of an aggregate. -/
def marshalFields (e : Endpoint) :
    List (String × Value) → Option (List (String × Value) × Endpoint)
  | [] => some ([], e)
  | (k, v) :: fs =>
      match marshal e v with
      | some (w, e') =>
          match marshalFields e' fs with
          | some (ws, e'') => some ((k, w) :: ws, e'')
          | none => none
      | none => none

end

mutual

/-- Modelled from the spec: the inbound walk of the Marshaller (§4.5) — a
handle reference materializes into a proxy bound to the peer's handle,
aggregates keep their shape, everything else maps to itself. -/
def unmarshal : Value → Value
  | .arr items => .arr (unmarshalList items)
  | .obj fields => .obj (unmarshalFields fields)
  | .handleRef h => .remoteFunc h
  | v => v

/-- The inbound walk over the items of an array. -/
def unmarshalList : List Value → List Value
  | [] => []
  | v :: vs => unmarshal v :: unmarshalList vs

/-- The inbound walk over the fields of an aggregate. -/
def unmarshalFields : List (String × Value) → List (String × Value)
  | [] => []
  | (k, v) :: fs => (k, unmarshal v) :: unmarshalFields fs

end

/-- One step of path descent (§4.6): ordered key lookup on aggregates, array
indices as decimal keys, a missing key yielding undefined as in the host
language; descent into anything else fails (§7 PathNotFound). -/
def stepKey : Value → String → Option Value
  | .obj fields, k =>
      some ((((fields.find? (fun f => f.1 = k)).map (fun f => f.2))).getD .undef)
  | .arr items, k =>
      match k.toNat? with
      | some i => some ((items.get? i).getD .undef)
      | none => some .undef
  | _, _ => none

/-- Modelled from the spec: resolution of a value at a dotted key sequence in
the exported tree (§3 get). -/
def resolvePath (v : Value) : List String → Option Value
  | [] => some v
  | k :: ks =>
      match stepKey v k with
      | some v' => resolvePath v' ks
      | none => none

/-- Modelled from the spec: resolving the target of an apply (§4.6, §9).  The
path is walked from the base value with `this` tracking the parent; a
terminal "apply" or "call" segment reached on a function mirrors the host
language's invocation forms, taking the `this` override and the argument list
from the synthesized leading arguments; otherwise the resolved function is
invoked with `this` bound to the value at the parent path.  Returns the
function id, the `this` value and the effective arguments. -/
def resolveApply : Value → Value → List String → List Value →
    Option (Nat × Value × List Value)
  | thisV, .func fid, [], args => some (fid, thisV, args)
  | _, cur, k :: ks, args =>
      (match stepKey cur k with
       | some v' => resolveApply cur v' ks args
       | none =>
           match cur, k, ks with
           | .func fid, "apply", [] =>
               (match args.getD 1 .undef with
                | .arr xs => some (fid, args.getD 0 .undef, xs)
                | .undef => some (fid, args.getD 0 .undef, [])
                | _ => none)
           | .func fid, "call", [] =>
               some (fid, args.headD .undef, args.drop 1)
           | _, _, _ => none)
  | _, _, [], _ => none

/-- Modelled from the spec: the fixed tag identifying the protocol (§3). -/
def protocolTag : String := "transporter"

/-- Modelled from the spec: the per-variant payloads of §3.  An apply (and a
get) may address a non-root handle (§7 UnknownHandle speaks of inbound
apply/get referencing ids); the exported root lives at the well-known id 0. -/
inductive Payload where
  | get (handle : Nat) (path : List String)
  | apply (handle : Nat) (path : List String) (args : List Value)
  | set (value : Value)
  | error (kind : String) (message : String)
  | garbageCollect (handle : Nat)
  | ping

/-- Modelled from the spec: the common envelope of §3 — request id, scope and
source tag — around a payload. -/
structure Message where
  id : Nat
  scope : Option String
  source : String
  payload : Payload

/-- The base value a handle addresses: the exported root at the well-known
id 0 (§3), otherwise a local function the table resolves. -/
def baseValue (e : Endpoint) (h : Nat) : Option Value :=
  if h = 0 then some e.root
  else
    match resolveHandle e.table h with
    | some (.fn fid) => some (.func fid)
    | _ => none

/-- The sum a variadic numeric function computes; defined only when every
argument is a number. -/
def sumNums : List Value → Option Int
  | [] => some 0
  | .num n :: vs => (sumNums vs).map (fun m => n + m)
  | _ :: _ => none

mutual

/-- Modelled from the spec: invoking a local function (§2 step 4).  The call
is recorded in the log, then the behaviour runs; a callback argument that is
a materialized proxy is invoked across the wire (§9 callback re-entry), one
that is a local function is invoked directly.  `fuel` bounds re-entry. -/
def invokeFn (fuel : Nat) (self peer : Endpoint) (fid : Nat) (thisV : Value)
    (args : List Value) : Option (Value × Endpoint × Endpoint) :=
  match fuel with
  | 0 => none
  | fuel + 1 =>
      match self.env.get? fid with
      | none => none
      | some b =>
          let self := { self with callLog := self.callLog ++ [(fid, args)] }
          match b with
          | .const v => some (v, self, peer)
          | .sumArgs =>
              match sumNums args with
              | some n => some (.num n, self, peer)
              | none => none
          | .returnThis => some (thisV, self, peer)
          | .echoObj key => some (.obj [(key, args.headD .undef)], self, peer)
          | .callArg i extra =>
              match args.getD i .undef with
              | .func fid' => invokeFn fuel self peer fid' .undef extra
              | .remoteFunc h => invokeRemote fuel self peer h extra
              | _ => none

/-- Modelled from the spec: invoking a handle owned by the peer — the nested
apply round trip of §2 step 4.  Arguments are marshalled by the caller,
unmarshalled and dispatched by the owner, and the result travels back the
same way.  Returns the caller-side result with both endpoints updated. -/
def invokeRemote (fuel : Nat) (self peer : Endpoint) (h : Nat)
    (args : List Value) : Option (Value × Endpoint × Endpoint) :=
  match fuel with
  | 0 => none
  | fuel + 1 =>
      match marshalList self args with
      | none => none
      | some (wargs, self) =>
          match resolveHandle peer.table h with
          | some (.fn fid) =>
              (match invokeFn fuel peer self fid .undef (unmarshalList wargs) with
               | some (res, peer, self) =>
                   (match marshal peer res with
                    | some (wres, peer) => some (unmarshal wres, self, peer)
                    | none => none)
               | none => none)
          | some (.fwd h') =>
              (match invokeRemote fuel peer self h' (unmarshalList wargs) with
               | some (res, peer, self) =>
                   (match marshal peer res with
                    | some (wres, peer) => some (unmarshal wres, self, peer)
                    | none => none)
               | none => none)
          | none => none

end

/-- Modelled from the spec: server-side dispatch (§4.7, §6).  A message whose
source is not the protocol tag or whose scope does not match the endpoint's
namespace is silently dropped with no outbound traffic.  A matching get
resolves its path and replies with exactly one set (or error) message; a
matching apply resolves its target, invokes it, and replies with exactly one
set (or error) message; a garbage_collect is a unilateral notice that
releases the handle and produces no reply; remaining message types are not
server requests and produce no reply.  Replies echo the request id. -/
def handleMessage (fuel : Nat) (self peer : Endpoint) (m : Message) :
    List Message × Endpoint × Endpoint :=
  if m.source = protocolTag ∧ m.scope = self.ns then
    let reply : Payload → Message := fun p => ⟨m.id, self.ns, protocolTag, p⟩
    match m.payload with
    | .get h path =>
        (match baseValue self h with
         | none => ([reply (.error "UnknownHandle" "unknown handle")], self, peer)
         | some base =>
             match resolvePath base path with
             | none => ([reply (.error "PathNotFound" "path not found")], self, peer)
             | some v =>
                 match marshal self v with
                 | some (w, self') => ([reply (.set w)], self', peer)
                 | none =>
                     ([reply (.error "CodecError" "unserializable value")], self, peer))
    | .apply h path wargs =>
        (match baseValue self h with
         | none => ([reply (.error "UnknownHandle" "unknown handle")], self, peer)
         | some base =>
             match resolveApply .undef base path (unmarshalList wargs) with
             | none =>
                 ([reply (.error "PathNotFound" "apply target not found")], self, peer)
             | some (fid, thisV, args) =>
                 match invokeFn fuel self peer fid thisV args with
                 | some (res, self', peer') =>
                     (match marshal self' res with
                      | some (w, self'') => ([reply (.set w)], self'', peer')
                      | none =>
                          ([reply (.error "CodecError" "unserializable result")],
                            self', peer'))
                 | none => ([reply (.error "RemoteError" "invocation failed")], self, peer))
    | .garbageCollect h => ([], releaseHandle self h, peer)
    | _ => ([], self, peer)
  else ([], self, peer)

/-- Modelled from the spec: the client-side lazy proxy (§4.6) — a handle id
at the peer plus an accumulated path. -/
structure ProxyRef where
  handle : Nat
  path : List String
deriving DecidableEq, Repr

/-- The proxy `useModule` returns: the exported root. -/
def rootProxy : ProxyRef := ⟨0, []⟩

/-- Modelled from the spec: property access on a proxy (§4.6) — synchronous,
the path extended by the key, no messages posted. -/
def accessChild (p : ProxyRef) (k : String) : ProxyRef × List Message :=
  (⟨p.handle, p.path ++ [k]⟩, [])

/-- Modelled from the spec: awaiting a proxy issues a get at its path
(§4.6). -/
def buildGetMsg (scope : Option String) (reqId : Nat) (p : ProxyRef) : Message :=
  ⟨reqId, scope, protocolTag, .get p.handle p.path⟩

/-- Modelled from the spec: invoking a proxy issues an apply at its path with
marshalled arguments (§4.6). -/
def buildApplyMsg (client : Endpoint) (reqId : Nat) (p : ProxyRef)
    (args : List Value) : Option (Message × Endpoint) :=
  match marshalList client args with
  | some (wargs, client') =>
      some (⟨reqId, client.ns, protocolTag, .apply p.handle p.path wargs⟩, client')
  | none => none

/-- `proxy.apply(thisArg, argsArray)` routes through the path segment
"apply" with the `this` override and the argument array as synthesized
arguments (§4.6, §9). -/
def buildApplyFormMsg (client : Endpoint) (reqId : Nat) (p : ProxyRef)
    (thisArg : Value) (argsArr : Value) : Option (Message × Endpoint) :=
  buildApplyMsg client reqId ⟨p.handle, p.path ++ ["apply"]⟩ [thisArg, argsArr]

/-- `proxy.call(thisArg, args...)` routes through the path segment "call"
with the `this` override as the synthesized leading argument (§4.6, §9). -/
def buildCallFormMsg (client : Endpoint) (reqId : Nat) (p : ProxyRef)
    (thisArg : Value) (args : List Value) : Option (Message × Endpoint) :=
  buildApplyMsg client reqId ⟨p.handle, p.path ++ ["call"]⟩ (thisArg :: args)

/-- Modelled from the spec: one request/response round trip (§2) over the
test suite's synchronous loopback channel — the client posts the message, the
server dispatches it, the client materializes the single set reply. -/
def deliver (fuel : Nat) (client server : Endpoint) (m : Message) :
    Option (Value × Endpoint × Endpoint) :=
  match handleMessage fuel server client m with
  | ([reply], server', client') =>
      (match reply.payload with
       | .set w => some (unmarshal w, client', server')
       | _ => none)
  | _ => none

/-- Awaiting a proxy end to end: get request, server dispatch, materialized
reply.  Returns the value with the updated client and server endpoints. -/
def awaitProxy (fuel : Nat) (client server : Endpoint) (reqId : Nat)
    (p : ProxyRef) : Option (Value × Endpoint × Endpoint) :=
  deliver fuel client server (buildGetMsg client.ns reqId p)

/-- Invoking a proxy end to end: marshalled apply request, server dispatch,
materialized reply. -/
def callProxy (fuel : Nat) (client server : Endpoint) (reqId : Nat)
    (p : ProxyRef) (args : List Value) : Option (Value × Endpoint × Endpoint) :=
  match buildApplyMsg client reqId p args with
  | some (m, client') => deliver fuel client' server m
  | none => none

/-- Invoking a proxy through `proxy.apply(thisArg, argsArray)` end to end. -/
def callProxyApplyForm (fuel : Nat) (client server : Endpoint) (reqId : Nat)
    (p : ProxyRef) (thisArg : Value) (argsArr : Value) :
    Option (Value × Endpoint × Endpoint) :=
  match buildApplyFormMsg client reqId p thisArg argsArr with
  | some (m, client') => deliver fuel client' server m
  | none => none

/-- Invoking a proxy through `proxy.call(thisArg, args...)` end to end. -/
def callProxyCallForm (fuel : Nat) (client server : Endpoint) (reqId : Nat)
    (p : ProxyRef) (thisArg : Value) (args : List Value) :
    Option (Value × Endpoint × Endpoint) :=
  match buildCallFormMsg client reqId p thisArg args with
  | some (m, client') => deliver fuel client' server m
  | none => none

/-- A fresh server endpoint bound to an exported root (`createModule`): empty
table, handle ids from 1 (0 names the root), empty call log. -/
def mkServer (scope : Option String) (root : Value) (env : List FnBehavior) :
    Endpoint :=
  ⟨scope, root, env, [], 1, []⟩

/-- A fresh client endpoint (`useModule`): no export of its own, its local
functions are the callbacks it may pass. -/
def mkClient (scope : Option String) (env : List FnBehavior) : Endpoint :=
  ⟨scope, .undef, env, [], 1, []⟩


/-! ## The supported value domain and structural round-trip equality -/

mutual

/-- The outbound (exportable) domain of the protocol: undefined, null,
booleans, numbers, strings, finite arrays, plain string-keyed aggregates and
functions, nested at any depth — no wire placeholders and no materialized
proxies. -/
def isExportable : Value → Bool
  | .arr items => isExportableList items
  | .obj fields => isExportableFields fields
  | .remoteFunc _ => false
  | .handleRef _ => false
  | _ => true

/-- Exportability of every item of an array. -/
def isExportableList : List Value → Bool
  | [] => true
  | v :: vs => isExportable v && isExportableList vs

/-- Exportability of every field of an aggregate. -/
def isExportableFields : List (String × Value) → Bool
  | [] => true
  | (_, v) :: fs => isExportable v && isExportableFields fs

end

mutual

/-- Values containing no function of any kind: such values marshal to
themselves and materialize to themselves. -/
def funcFree : Value → Bool
  | .arr items => funcFreeList items
  | .obj fields => funcFreeFields fields
  | .func _ => false
  | .remoteFunc _ => false
  | .handleRef _ => false
  | _ => true

/-- Function-freeness of every item of an array. -/
def funcFreeList : List Value → Bool
  | [] => true
  | v :: vs => funcFree v && funcFreeList vs

/-- Function-freeness of every field of an aggregate. -/
def funcFreeFields : List (String × Value) → Bool
  | [] => true
  | (_, v) :: fs => funcFree v && funcFreeFields fs

end

mutual

/-- Structural equality of an exported value with its round-tripped image,
relative to the owner's handle table: primitives and shapes must agree, and
at each function position the image must be a materialized proxy whose
handle the table resolves to that very function. -/
def structEq (t : List HandleEntry) : Value → Value → Bool
  | .undef, .undef => true
  | .null, .null => true
  | .bool a, .bool b => decide (a = b)
  | .num a, .num b => decide (a = b)
  | .str a, .str b => decide (a = b)
  | .arr xs, .arr ys => structEqList t xs ys
  | .obj xs, .obj ys => structEqFields t xs ys
  | .func fid, .remoteFunc h => decide (resolveHandle t h = some (.fn fid))
  | _, _ => false

/-- Pointwise structural equality of array items. -/
def structEqList (t : List HandleEntry) : List Value → List Value → Bool
  | [], [] => true
  | v :: vs, w :: ws => structEq t v w && structEqList t vs ws
  | _, _ => false

/-- Pointwise structural equality of aggregate fields (keys in order). -/
def structEqFields (t : List HandleEntry) :
    List (String × Value) → List (String × Value) → Bool
  | [], [] => true
  | (k, v) :: vs, (k', w) :: ws =>
      decide (k = k') && structEq t v w && structEqFields t vs ws
  | _, _ => false

end

/-- A well-formed endpoint handle table: ids below the allocation cursor,
pairwise distinct, and (no retains having happened) reference count one. -/
def TableWf (e : Endpoint) : Prop :=
  (∀ en ∈ e.table, en.id < e.nextHandle) ∧
    (e.table.map HandleEntry.id).Nodup ∧ ∀ en ∈ e.table, en.refs = 1

/-- Table extension: every resolution the old table answers, the new table
answers identically (ids are never reused within a session, §3). -/
def TableLe (t t' : List HandleEntry) : Prop :=
  ∀ h tgt, resolveHandle t h = some tgt → resolveHandle t' h = some tgt

theorem TableLe.rfl (t : List HandleEntry) : TableLe t t := fun _ _ h => h

theorem TableLe.trans {t₁ t₂ t₃ : List HandleEntry} (h₁ : TableLe t₁ t₂)
    (h₂ : TableLe t₂ t₃) : TableLe t₁ t₃ := fun h tgt hr => h₂ h tgt (h₁ h tgt hr)

theorem resolveHandle_mem {t : List HandleEntry} {h : Nat} {tgt : HTarget}
    (hr : resolveHandle t h = some tgt) : ∃ en ∈ t, en.id = h ∧ en.target = tgt := by
  unfold resolveHandle at hr
  cases hfind : t.find? (fun en => en.id = h) with
  | none => rw [hfind] at hr; simp at hr
  | some en =>
      rw [hfind] at hr
      simp at hr
      have hmem := List.mem_of_find?_eq_some hfind
      have hp := List.find?_some hfind
      simp at hp
      exact ⟨en, hmem, hp, hr⟩

theorem resolveHandle_cons_ne {en : HandleEntry} {t : List HandleEntry} {h : Nat}
    (hne : h ≠ en.id) : resolveHandle (en :: t) h = resolveHandle t h := by
  unfold resolveHandle
  rw [List.find?_cons_of_neg]
  simp
  exact fun hh => hne hh.symm

theorem resolveHandle_cons_self (en : HandleEntry) (t : List HandleEntry) :
    resolveHandle (en :: t) en.id = some en.target := by
  unfold resolveHandle
  rw [List.find?_cons_of_pos] <;> simp


theorem resolveHandle_of_mem {t : List HandleEntry}
    (hnd : (t.map HandleEntry.id).Nodup) {en : HandleEntry} (hen : en ∈ t) :
    resolveHandle t en.id = some en.target := by
  induction t with
  | nil => cases hen
  | cons a t ih =>
      simp only [List.map_cons, List.nodup_cons] at hnd
      rcases List.mem_cons.mp hen with rfl | hen
      · exact resolveHandle_cons_self _ _
      · have hne : en.id ≠ a.id := by
          intro hh
          exact hnd.1 (hh ▸ List.mem_map_of_mem HandleEntry.id hen)
        rw [resolveHandle_cons_ne hne]
        exact ih hnd.2 hen

theorem allocHandle_wf {e : Endpoint} (tgt : HTarget) (hwf : TableWf e) :
    TableWf (allocHandle e tgt).2 := by
  obtain ⟨hlt, hnd, hrefs⟩ := hwf
  unfold allocHandle
  cases hfind : findHandle e.table tgt with
  | some h => exact ⟨hlt, hnd, hrefs⟩
  | none =>
      refine ⟨?_, ?_, ?_⟩
      · intro en hen
        rcases List.mem_cons.mp hen with rfl | hen
        · exact Nat.lt_succ_self _
        · exact Nat.lt_succ_of_lt (hlt en hen)
      · simp only [List.map_cons, List.nodup_cons]
        refine ⟨?_, hnd⟩
        intro hmem
        rcases List.mem_map.mp hmem with ⟨en, hen, hid⟩
        exact absurd hid (Nat.ne_of_lt (hlt en hen))
      · intro en hen
        rcases List.mem_cons.mp hen with rfl | hen
        · rfl
        · exact hrefs en hen

theorem allocHandle_le {e : Endpoint} (tgt : HTarget) (hwf : TableWf e) :
    TableLe e.table (allocHandle e tgt).2.table := by
  unfold allocHandle
  cases hfind : findHandle e.table tgt with
  | some h => exact TableLe.rfl _
  | none =>
      intro h tgt₀ hr
      obtain ⟨en, hen, hid, htg⟩ := resolveHandle_mem hr
      have hne : h ≠ (⟨e.nextHandle, tgt, 1⟩ : HandleEntry).id := by
        have := hwf.1 en hen
        simp only []
        omega
      rw [resolveHandle_cons_ne hne]
      exact hr

theorem allocHandle_resolves {e : Endpoint} (tgt : HTarget) (hwf : TableWf e) :
    resolveHandle (allocHandle e tgt).2.table (allocHandle e tgt).1 = some tgt := by
  unfold allocHandle
  cases hfind : findHandle e.table tgt with
  | some h =>
      unfold findHandle at hfind
      cases hf : e.table.find? (fun en => en.target = tgt) with
      | none => rw [hf] at hfind; simp at hfind
      | some en =>
          rw [hf] at hfind
          simp at hfind
          have hmem := List.mem_of_find?_eq_some hf
          have hp := List.find?_some hf
          simp at hp
          subst hfind
          simp only []
          rw [resolveHandle_of_mem hwf.2.1 hmem, hp]
  | none => exact resolveHandle_cons_self ⟨e.nextHandle, tgt, 1⟩ e.table

mutual

theorem structEq_mono (t t' : List HandleEntry) (hle : TableLe t t') :
    ∀ (v w : Value), structEq t v w = true → structEq t' v w = true
  | .undef, w, h => by cases w <;> simpa [structEq] using h
  | .null, w, h => by cases w <;> simpa [structEq] using h
  | .bool _, w, h => by cases w <;> simpa [structEq] using h
  | .num _, w, h => by cases w <;> simpa [structEq] using h
  | .str _, w, h => by cases w <;> simpa [structEq] using h
  | .arr xs, w, h => by
      cases w <;> simp only [structEq] at h ⊢ <;>
        first
          | exact h
          | exact structEqList_mono t t' hle xs _ h
  | .obj fs, w, h => by
      cases w <;> simp only [structEq] at h ⊢ <;>
        first
          | exact h
          | exact structEqFields_mono t t' hle fs _ h
  | .func fid, w, h => by
      cases w <;> simp only [structEq, decide_eq_true_eq] at h ⊢ <;>
        first
          | exact h
          | exact hle _ _ h
  | .remoteFunc _, w, h => by cases w <;> simpa [structEq] using h
  | .handleRef _, w, h => by cases w <;> simpa [structEq] using h

theorem structEqList_mono (t t' : List HandleEntry) (hle : TableLe t t') :
    ∀ (vs ws : List Value), structEqList t vs ws = true → structEqList t' vs ws = true
  | [], ws, h => by cases ws <;> simpa [structEqList] using h
  | v :: vs, ws, h => by
      cases ws with
      | nil => simpa [structEqList] using h
      | cons w ws =>
          simp only [structEqList, Bool.and_eq_true] at h ⊢
          exact ⟨structEq_mono t t' hle v w h.1, structEqList_mono t t' hle vs ws h.2⟩

theorem structEqFields_mono (t t' : List HandleEntry) (hle : TableLe t t') :
    ∀ (vs ws : List (String × Value)),
      structEqFields t vs ws = true → structEqFields t' vs ws = true
  | [], ws, h => by cases ws <;> simpa [structEqFields] using h
  | (k, v) :: vs, ws, h => by
      cases ws with
      | nil => simpa [structEqFields] using h
      | cons w ws =>
          obtain ⟨k', w⟩ := w
          simp only [structEqFields, Bool.and_eq_true] at h ⊢
          exact ⟨⟨h.1.1, structEq_mono t t' hle v w h.1.2⟩,
            structEqFields_mono t t' hle vs ws h.2⟩

end


mutual

theorem marshal_sound : ∀ (e : Endpoint) (v : Value), TableWf e → isExportable v = true →
    ∃ w e', marshal e v = some (w, e') ∧ TableWf e' ∧ TableLe e.table e'.table ∧
      structEq e'.table v (unmarshal w) = true
  | e, .undef, hwf, _ => ⟨.undef, e, rfl, hwf, TableLe.rfl _, rfl⟩
  | e, .null, hwf, _ => ⟨.null, e, rfl, hwf, TableLe.rfl _, rfl⟩
  | e, .bool b, hwf, _ => ⟨.bool b, e, rfl, hwf, TableLe.rfl _, by simp [structEq, unmarshal]⟩
  | e, .num n, hwf, _ => ⟨.num n, e, rfl, hwf, TableLe.rfl _, by simp [structEq, unmarshal]⟩
  | e, .str s, hwf, _ => ⟨.str s, e, rfl, hwf, TableLe.rfl _, by simp [structEq, unmarshal]⟩
  | e, .func fid, hwf, _ =>
      ⟨.handleRef (allocHandle e (.fn fid)).1, (allocHandle e (.fn fid)).2, rfl,
        allocHandle_wf _ hwf, allocHandle_le _ hwf, by
          simp only [unmarshal, structEq, decide_eq_true_eq]
          exact allocHandle_resolves _ hwf⟩
  | e, .remoteFunc h, hwf, hd => by simp [isExportable] at hd
  | e, .handleRef h, hwf, hd => by simp [isExportable] at hd
  | e, .arr items, hwf, hd => by
      obtain ⟨ws, e', heq, hwf', hle, hseq⟩ :=
        marshalList_sound e items hwf (by simpa [isExportable] using hd)
      refine ⟨.arr ws, e', ?_, hwf', hle, ?_⟩
      · simp [marshal, heq]
      · simp only [unmarshal, structEq]
        exact hseq
  | e, .obj fields, hwf, hd => by
      obtain ⟨ws, e', heq, hwf', hle, hseq⟩ :=
        marshalFields_sound e fields hwf (by simpa [isExportable] using hd)
      refine ⟨.obj ws, e', ?_, hwf', hle, ?_⟩
      · simp [marshal, heq]
      · simp only [unmarshal, structEq]
        exact hseq

theorem marshalList_sound : ∀ (e : Endpoint) (vs : List Value), TableWf e →
    isExportableList vs = true →
    ∃ ws e', marshalList e vs = some (ws, e') ∧ TableWf e' ∧ TableLe e.table e'.table ∧
      structEqList e'.table vs (unmarshalList ws) = true
  | e, [], hwf, _ => ⟨[], e, rfl, hwf, TableLe.rfl _, rfl⟩
  | e, v :: vs, hwf, hd => by
      simp only [isExportableList, Bool.and_eq_true] at hd
      obtain ⟨w, e₁, heq₁, hwf₁, hle₁, hseq₁⟩ := marshal_sound e v hwf hd.1
      obtain ⟨ws, e₂, heq₂, hwf₂, hle₂, hseq₂⟩ := marshalList_sound e₁ vs hwf₁ hd.2
      refine ⟨w :: ws, e₂, ?_, hwf₂, hle₁.trans hle₂, ?_⟩
      · simp [marshalList, heq₁, heq₂]
      · simp only [unmarshalList, structEqList, Bool.and_eq_true]
        exact ⟨structEq_mono _ _ hle₂ _ _ hseq₁, hseq₂⟩

theorem marshalFields_sound : ∀ (e : Endpoint) (fs : List (String × Value)), TableWf e →
    isExportableFields fs = true →
    ∃ ws e', marshalFields e fs = some (ws, e') ∧ TableWf e' ∧ TableLe e.table e'.table ∧
      structEqFields e'.table fs (unmarshalFields ws) = true
  | e, [], hwf, _ => ⟨[], e, rfl, hwf, TableLe.rfl _, rfl⟩
  | e, (k, v) :: fs, hwf, hd => by
      simp only [isExportableFields, Bool.and_eq_true] at hd
      obtain ⟨w, e₁, heq₁, hwf₁, hle₁, hseq₁⟩ := marshal_sound e v hwf hd.1
      obtain ⟨ws, e₂, heq₂, hwf₂, hle₂, hseq₂⟩ := marshalFields_sound e₁ fs hwf₁ hd.2
      refine ⟨(k, w) :: ws, e₂, ?_, hwf₂, hle₁.trans hle₂, ?_⟩
      · simp [marshalFields, heq₁, heq₂]
      · simp only [unmarshalFields, structEqFields, Bool.and_eq_true]
        exact ⟨⟨by simp, structEq_mono _ _ hle₂ _ _ hseq₁⟩, hseq₂⟩

end

theorem mkServer_wf (scope : Option String) (root : Value) (env : List FnBehavior) :
    TableWf (mkServer scope root env) := by
  refine ⟨?_, ?_, ?_⟩ <;> simp [mkServer, TableWf]


theorem mkServer_ns (s : Option String) (v : Value) (env : List FnBehavior) :
    (mkServer s v env).ns = s := rfl

theorem mkServer_root (s : Option String) (v : Value) (env : List FnBehavior) :
    (mkServer s v env).root = v := rfl

theorem mkClient_ns (s : Option String) (env : List FnBehavior) :
    (mkClient s env).ns = s := rfl

/-! ## The claims -/

/-- C1: Round-trip fidelity — for every value in the supported domain
(undefined, null, booleans, numbers, strings, finite arrays, plain
string-keyed aggregates, and functions nested at any depth), awaiting the
proxy obtained from useModule over a module exporting the value yields a
value structurally equal to it: primitives and shapes are preserved, and
each function position holds a materialized proxy whose handle the owner's
table resolves back to that very function. -/
theorem c1_round_trip_fidelity (scope : Option String) (v : Value)
    (envS envC : List FnBehavior) (fuel reqId : Nat)
    (hd : isExportable v = true) :
    ∃ w server',
      awaitProxy fuel (mkClient scope envC) (mkServer scope v envS) reqId rootProxy
          = some (w, mkClient scope envC, server') ∧
        structEq server'.table v w = true := by
  obtain ⟨w, e', heq, hwf', hle, hseq⟩ :=
    marshal_sound (mkServer scope v envS) v (mkServer_wf scope v envS) hd
  refine ⟨unmarshal w, e', ?_, hseq⟩
  simp only [awaitProxy, deliver, buildGetMsg, handleMessage, rootProxy, baseValue,
    resolvePath, mkServer_ns, mkServer_root, mkClient_ns]
  simp [heq]

/-- The complex object of the test "exposing a complex object"; the two
function fields (the spies ab and db2a) are the owner's function ids 0/1. -/
def complexObj : Value :=
  .obj [("a", .obj [("aa", .null), ("ab", .func 0)]),
        ("b", .str "🥸"),
        ("c", .num 3),
        ("d", .obj [("da", .undef),
                    ("db", .arr [.num 24, .bool true, .obj [("db2a", .func 1)]])])]

/-- Witness for C1 at the complex object of the test suite. -/
theorem c1_round_trip_fidelity_witness :
    isExportable complexObj = true ∧
      ∃ w server',
        awaitProxy 5 (mkClient none []) (mkServer none complexObj [.const .undef, .const .undef])
            7 rootProxy = some (w, mkClient none [], server') ∧
          structEq server'.table complexObj w = true :=
  ⟨rfl, c1_round_trip_fidelity none complexObj [.const .undef, .const .undef] [] 5 7 rfl⟩


mutual

theorem marshal_funcFree : ∀ (e : Endpoint) (v : Value), funcFree v = true →
    marshal e v = some (v, e)
  | e, .undef, _ => rfl
  | e, .null, _ => rfl
  | e, .bool _, _ => rfl
  | e, .num _, _ => rfl
  | e, .str _, _ => rfl
  | e, .func _, h => by simp [funcFree] at h
  | e, .remoteFunc _, h => by simp [funcFree] at h
  | e, .handleRef _, h => by simp [funcFree] at h
  | e, .arr items, h => by
      simp [marshal, marshalList_funcFree e items (by simpa [funcFree] using h)]
  | e, .obj fields, h => by
      simp [marshal, marshalFields_funcFree e fields (by simpa [funcFree] using h)]

theorem marshalList_funcFree : ∀ (e : Endpoint) (vs : List Value), funcFreeList vs = true →
    marshalList e vs = some (vs, e)
  | e, [], _ => rfl
  | e, v :: vs, h => by
      simp only [funcFreeList, Bool.and_eq_true] at h
      simp [marshalList, marshal_funcFree e v h.1, marshalList_funcFree e vs h.2]

theorem marshalFields_funcFree : ∀ (e : Endpoint) (fs : List (String × Value)),
    funcFreeFields fs = true → marshalFields e fs = some (fs, e)
  | e, [], _ => rfl
  | e, (k, v) :: fs, h => by
      simp only [funcFreeFields, Bool.and_eq_true] at h
      simp [marshalFields, marshal_funcFree e v h.1, marshalFields_funcFree e fs h.2]

end

mutual

theorem unmarshal_funcFree : ∀ (v : Value), funcFree v = true → unmarshal v = v
  | .undef, _ => rfl
  | .null, _ => rfl
  | .bool _, _ => rfl
  | .num _, _ => rfl
  | .str _, _ => rfl
  | .func _, h => by simp [funcFree] at h
  | .remoteFunc _, h => by simp [funcFree] at h
  | .handleRef _, h => by simp [funcFree] at h
  | .arr items, h => by
      simp [unmarshal, unmarshalList_funcFree items (by simpa [funcFree] using h)]
  | .obj fields, h => by
      simp [unmarshal, unmarshalFields_funcFree fields (by simpa [funcFree] using h)]

theorem unmarshalList_funcFree : ∀ (vs : List Value), funcFreeList vs = true →
    unmarshalList vs = vs
  | [], _ => rfl
  | v :: vs, h => by
      simp only [funcFreeList, Bool.and_eq_true] at h
      simp [unmarshalList, unmarshal_funcFree v h.1, unmarshalList_funcFree vs h.2]

theorem unmarshalFields_funcFree : ∀ (fs : List (String × Value)),
    funcFreeFields fs = true → unmarshalFields fs = fs
  | [], _ => rfl
  | (k, v) :: fs, h => by
      simp only [funcFreeFields, Bool.and_eq_true] at h
      simp [unmarshalFields, unmarshal_funcFree v h.1, unmarshalFields_funcFree fs h.2]

end

theorem funcFreeList_nums (ns' : List Int) : funcFreeList (ns'.map Value.num) = true := by
  induction ns' with
  | nil => rfl
  | cons n tl ih => simp [funcFreeList, funcFree, ih]

theorem sumNums_map (ns' : List Int) : sumNums (ns'.map Value.num) = some ns'.sum := by
  induction ns' with
  | nil => rfl
  | cons n tl ih => simp [sumNums, ih]


/-- Whether a payload is a request a server endpoint answers (§3): a get or
an apply. -/
def isRequest : Payload → Bool
  | .get _ _ => true
  | .apply _ _ _ => true
  | _ => false

/-- C2 (amended): No cross-talk — a message whose source is not the protocol
tag or whose scope differs from the endpoint's namespace produces no outbound
traffic at all; a matching message of a request type (get or apply) produces
exactly one reply.  (A matching garbage_collect is a unilateral notice and
produces no reply, which is the one correction to the claim as stated.) -/
theorem c2_no_crosstalk (fuel : Nat) (self peer : Endpoint) (m : Message) :
    (¬ (m.source = protocolTag ∧ m.scope = self.ns) →
        handleMessage fuel self peer m = ([], self, peer)) ∧
    (m.source = protocolTag → m.scope = self.ns → isRequest m.payload = true →
        (handleMessage fuel self peer m).1.length = 1) := by
  constructor
  · intro hno
    unfold handleMessage
    rw [if_neg hno]
  · intro hs hsc hreq
    obtain ⟨mid, msc, msrc, pl⟩ := m
    simp only at hs hsc
    unfold handleMessage
    rw [if_pos ⟨hs, hsc⟩]
    cases pl <;> simp_all [isRequest] <;> (repeat' split) <;> rfl

/-- C2 counterexample to the claim as stated: a garbage_collect message with
matching scope and protocol source produces zero replies, not exactly one. -/
theorem c2_no_crosstalk_cx :
    (⟨9, some "A", protocolTag, .garbageCollect 5⟩ : Message).source = protocolTag ∧
    (⟨9, some "A", protocolTag, .garbageCollect 5⟩ : Message).scope
        = (mkServer (some "A") (.str "a") []).ns ∧
    (handleMessage 5 (mkServer (some "A") (.str "a") []) (mkClient (some "A") [])
        ⟨9, some "A", protocolTag, .garbageCollect 5⟩).1.length = 0 :=
  ⟨rfl, rfl, rfl⟩


/-- The exported variadic sum of the tests (function spread arguments /
function apply / function call), as a server endpoint. -/
def sumServer : Endpoint := mkServer none (.func 0) [.sumArgs]

/-- C6: Invocation-form equivalence — over the exported variadic numeric sum,
direct invocation, proxy.apply(proxy, args) and proxy.call(proxy, ...args)
each put one apply message on the wire (the latter two through the "apply" /
"call" path segments, with the proxy marshalled as the synthesized this
argument) and all three resolve to the same sum of the arguments. -/
theorem c6_invocation_form_equivalence (ns' : List Int) (fuel r1 r2 r3 : Nat) :
    ∃ c₁ c₂ c₃,
      buildApplyMsg (mkClient none []) r1 rootProxy (ns'.map .num)
          = some (⟨r1, none, protocolTag, .apply 0 [] (ns'.map .num)⟩, c₁) ∧
      buildApplyFormMsg (mkClient none []) r2 rootProxy (.remoteFunc 0) (.arr (ns'.map .num))
          = some (⟨r2, none, protocolTag,
              .apply 0 ["apply"] [.handleRef 1, .arr (ns'.map .num)]⟩, c₂) ∧
      buildCallFormMsg (mkClient none []) r3 rootProxy (.remoteFunc 0) (ns'.map .num)
          = some (⟨r3, none, protocolTag,
              .apply 0 ["call"] (.handleRef 1 :: ns'.map .num)⟩, c₃) ∧
      (callProxy (fuel + 1) (mkClient none []) sumServer r1 rootProxy (ns'.map .num)).map
          (fun r => r.1) = some (.num ns'.sum) ∧
      (callProxyApplyForm (fuel + 1) (mkClient none []) sumServer r2 rootProxy
          (.remoteFunc 0) (.arr (ns'.map .num))).map (fun r => r.1) = some (.num ns'.sum) ∧
      (callProxyCallForm (fuel + 1) (mkClient none []) sumServer r3 rootProxy
          (.remoteFunc 0) (ns'.map .num)).map (fun r => r.1) = some (.num ns'.sum) := by
  have hff := funcFreeList_nums ns'
  have hm : ∀ e : Endpoint, marshalList e (ns'.map .num) = some (ns'.map .num, e) :=
    fun e => marshalList_funcFree e _ hff
  have hu : unmarshalList (ns'.map .num) = ns'.map .num := unmarshalList_funcFree _ hff
  refine ⟨mkClient none [], ⟨none, .undef, [], [⟨1, .fwd 0, 1⟩], 2, []⟩,
    ⟨none, .undef, [], [⟨1, .fwd 0, 1⟩], 2, []⟩, ?_, ?_, ?_, ?_, ?_, ?_⟩
  · simp [buildApplyMsg, rootProxy, hm, mkClient_ns]
  · simp [buildApplyFormMsg, buildApplyMsg, rootProxy, marshalList, marshal, allocHandle,
      findHandle, mkClient, hm]
  · simp [buildCallFormMsg, buildApplyMsg, rootProxy, marshalList, marshal, allocHandle,
      findHandle, mkClient, hm]
  · simp only [callProxy, buildApplyMsg, rootProxy, hm, mkClient_ns, deliver, handleMessage,
      baseValue, sumServer, mkServer_ns, mkServer_root]
    simp [resolveApply, hu, invokeFn, sumNums_map, marshal, mkServer, mkClient, unmarshal]
  · simp only [callProxyApplyForm, buildApplyFormMsg, buildApplyMsg, rootProxy, deliver,
      handleMessage, baseValue, sumServer, mkServer_ns, mkServer_root]
    simp [marshalList, marshal, allocHandle, findHandle, mkClient, hm, unmarshalList,
      unmarshal, hu, resolveApply, stepKey, invokeFn, sumNums_map, mkServer]
  · simp only [callProxyCallForm, buildCallFormMsg, buildApplyMsg, rootProxy, deliver,
      handleMessage, baseValue, sumServer, mkServer_ns, mkServer_root]
    simp [marshalList, marshal, allocHandle, findHandle, mkClient, hm, unmarshalList,
      unmarshal, hu, resolveApply, stepKey, invokeFn, sumNums_map, mkServer]


/-- C7: Callback marshalling — exposing `(cb) => cb("🥸")` and calling the
proxy with a local callback results in the callback being invoked exactly
once with "🥸" while the outer call resolves to undefined (the exposed
function is itself invoked exactly once, with the materialized callback
proxy); and in the chaining scenario `c = (cb) => cb(a)` with the client
callback `b = (cb) => cb()` and `a = () => "🥸"`, the call resolves to "🥸"
with each of a, b, c invoked exactly once. -/
theorem c7_callback_marshalling :
    (callProxy 10 (mkClient none [.const .undef])
        (mkServer none (.func 0) [.callArg 0 [.str "🥸"]]) 1 rootProxy [.func 0]).map
        (fun r => (r.1, r.2.1.callLog, r.2.2.callLog)) =
      some (.undef, [(0, [.str "🥸"])], [(0, [.remoteFunc 1])]) ∧
    (callProxy 10 (mkClient none [.callArg 0 []])
        (mkServer none (.func 1) [.const (.str "🥸"), .callArg 0 [.func 0]]) 1 rootProxy
        [.func 0]).map (fun r => (r.1, r.2.1.callLog, r.2.2.callLog)) =
      some (.str "🥸", [(0, [.remoteFunc 1])], [(1, [.remoteFunc 1]), (0, [])]) :=
  ⟨rfl, rfl⟩

/-- C9: Invoking a proxy through .call with an explicit this value transmits
that value across the wire (as the synthesized leading argument of the apply
at the "call" path segment), and the remote function observes it as its this
binding: exposing a function returning `this` and calling
`proxy.call(tv)` resolves to `tv` for every function-free value `tv`. -/
theorem c9_this_value_transmitted (fuel r : Nat) (tv : Value)
    (hff : funcFree tv = true) :
    (callProxyCallForm (fuel + 1) (mkClient none [])
        (mkServer none (.func 0) [.returnThis]) r rootProxy tv []).map (fun r => r.1)
      = some tv := by
  have hm : ∀ e : Endpoint, marshal e tv = some (tv, e) :=
    fun e => marshal_funcFree e tv hff
  have hu : unmarshal tv = tv := unmarshal_funcFree tv hff
  simp only [callProxyCallForm, buildCallFormMsg, buildApplyMsg, rootProxy, deliver,
    handleMessage, baseValue, mkServer_ns, mkServer_root, mkClient_ns]
  simp [marshalList, hm, unmarshalList, hu, resolveApply, stepKey, invokeFn, marshal,
    mkServer, mkClient]

/-- Witness for C9 at the test's this value, the object with field a = "a". -/
theorem c9_this_value_transmitted_witness :
    (callProxyCallForm 3 (mkClient none []) (mkServer none (.func 0) [.returnThis]) 1
        rootProxy (.obj [("a", .str "a")]) []).map (fun r => r.1)
      = some (.obj [("a", .str "a")]) :=
  c9_this_value_transmitted 2 1 (.obj [("a", .str "a")]) rfl

/-- C10: Awaiting a proxy whose remote target is a function yields a callable
wrapper (a materialized proxy for a fresh handle) without invoking the
target — the owner's call log stays empty; only when the wrapper is invoked
is the target invoked, exactly once, with the forwarded argument, and the
call resolves to the target's result. -/
theorem c10_wrapper_laziness (fuel r1 r2 : Nat) (arg : Value)
    (hff : funcFree arg = true) :
    (awaitProxy fuel (mkClient none []) (mkServer none (.func 0) [.echoObj "ok"]) r1
        rootProxy).map (fun r => (r.1, r.2.2.callLog)) = some (.remoteFunc 1, []) ∧
    (callProxy (fuel + 1) (mkClient none [])
        (⟨none, .func 0, [.echoObj "ok"], [⟨1, .fn 0, 1⟩], 2, []⟩ : Endpoint) r2
        ⟨1, []⟩ [arg]).map (fun r => (r.1, r.2.2.callLog)) =
      some (.obj [("ok", arg)], [(0, [arg])]) := by
  have hm : ∀ e : Endpoint, marshal e arg = some (arg, e) :=
    fun e => marshal_funcFree e arg hff
  have hu : unmarshal arg = arg := unmarshal_funcFree arg hff
  constructor
  · rfl
  · simp only [callProxy, buildApplyMsg, deliver, handleMessage, baseValue]
    simp [marshalList, hm, unmarshalList, hu, resolveApply, invokeFn, marshal,
      marshalFields, unmarshal, unmarshalFields, resolveHandle, mkClient, List.find?]

/-- Witness for C10 at the test's argument "🥸". -/
theorem c10_wrapper_laziness_witness :
    (awaitProxy 3 (mkClient none []) (mkServer none (.func 0) [.echoObj "ok"]) 1
        rootProxy).map (fun r => (r.1, r.2.2.callLog)) = some (.remoteFunc 1, []) ∧
    (callProxy 3 (mkClient none [])
        (⟨none, .func 0, [.echoObj "ok"], [⟨1, .fn 0, 1⟩], 2, []⟩ : Endpoint) 2
        ⟨1, []⟩ [.str "🥸"]).map (fun r => (r.1, r.2.2.callLog)) =
      some (.obj [("ok", .str "🥸")], [(0, [.str "🥸"])]) :=
  c10_wrapper_laziness 2 1 2 (.str "🥸") rfl

/-- C8: Lazy path descent — property access on a proxy synchronously returns
a new proxy whose path is the old path extended by the key, posting no
messages; only awaiting a proxy (a get at its path) or invoking it (an apply
at its path) builds a message. -/
theorem c8_lazy_path_descent (p : ProxyRef) (k : String) :
    accessChild p k = (⟨p.handle, p.path ++ [k]⟩, ([] : List Message)) ∧
    (∀ (scope : Option String) (reqId : Nat),
        (buildGetMsg scope reqId p).payload = .get p.handle p.path) ∧
    (∀ (client : Endpoint) (reqId : Nat) (args : List Value) (m : Message) (c' : Endpoint),
        buildApplyMsg client reqId p args = some (m, c') →
          ∃ wargs, m.payload = .apply p.handle p.path wargs) := by
  refine ⟨rfl, fun _ _ => rfl, ?_⟩
  intro client reqId args m c' hm
  unfold buildApplyMsg at hm
  cases hml : marshalList client args with
  | none => rw [hml] at hm; cases hm
  | some pr =>
      rw [hml] at hm
      cases hm
      exact ⟨pr.1, rfl⟩

/-- Witness for C8 at the root proxy and key "a". -/
theorem c8_lazy_path_descent_witness :
    accessChild rootProxy "a" = (⟨0, ["a"]⟩, ([] : List Message)) ∧
    (buildGetMsg none 1 rootProxy).payload = .get 0 [] ∧
    ∃ wargs, (⟨1, none, protocolTag, .apply 0 [] []⟩ : Message).payload
        = .apply 0 [] wargs :=
  ⟨(c8_lazy_path_descent rootProxy "a").1,
    (c8_lazy_path_descent rootProxy "a").2.1 none 1,
    (c8_lazy_path_descent rootProxy "a").2.2 (mkClient none []) 1 [] _ _ rfl⟩


/-- An outcome of a pending request: resolved with the set value, or rejected
with a classified error kind (§7). -/
inductive Outcome where
  | resolved (v : Value)
  | rejected (kind : String)

/-- Modelled from the spec: a virtual-time timer — the timeout of a pending
request (§3 Pending request), or an in-flight set reply scheduled for the
moment the remote promise settles (§4.4: the remote side MUST delay its set
reply until that promise settles). -/
inductive Timer where
  | timeoutT (id : Nat)
  | deliverT (id : Nat) (v : Value)

/-- Modelled from the spec: the client Dispatcher under virtual time (§4.4)
— the clock, the timer queue in insertion order, the pending request ids and
the settled outcomes. -/
structure DispState where
  now : Nat
  timers : List (Nat × Timer)
  pending : List Nat
  done : List (Nat × Outcome)

/-- Firing one timer: a timeout rejects its request with TimeoutError if the
slot is still pending (§3); a delivery resolves the slot if still pending,
and a late reply is silently dropped (§5). -/
def fireTimer (s : DispState) : Timer → DispState
  | .timeoutT id =>
      if s.pending.contains id then
        { s with pending := s.pending.filter (fun i => i ≠ id)
                 done := s.done ++ [(id, .rejected "TimeoutError")] }
      else s
  | .deliverT id v =>
      if s.pending.contains id then
        { s with pending := s.pending.filter (fun i => i ≠ id)
                 done := s.done ++ [(id, .resolved v)] }
      else s

/-- The earliest fire time at or before the horizon, if any. -/
def earliestDue (timers : List (Nat × Timer)) (t : Nat) : Option Nat :=
  timers.foldl
    (fun acc tm =>
      if tm.1 ≤ t then
        match acc with
        | none => some tm.1
        | some m => some (min m tm.1)
      else acc) none

/-- The first timer (in insertion order) with the given fire time, with the
remaining queue. -/
def takeFirstAt : List (Nat × Timer) → Nat → Option (Timer × List (Nat × Timer))
  | [], _ => none
  | tm :: rest, tt =>
      if tm.1 = tt then some (tm.2, rest)
      else (takeFirstAt rest tt).map (fun pr => (pr.1, tm :: pr.2))

/-- Fire every timer due at or before the horizon, in fire-time order with
insertion order breaking ties (the host's fake-timer discipline); the fuel
is the queue length, which each step decreases. -/
def runTimersTo (fuel : Nat) (s : DispState) (t : Nat) : DispState :=
  match fuel with
  | 0 => { s with now := max s.now t }
  | fuel + 1 =>
      match earliestDue s.timers t with
      | none => { s with now := max s.now t }
      | some tt =>
          match takeFirstAt s.timers tt with
          | none => { s with now := max s.now t }
          | some (tm, rest) =>
              runTimersTo fuel (fireTimer { s with timers := rest, now := max s.now tt } tm) t

/-- Advance virtual time to `t`, firing all due timers. -/
def advanceTo (s : DispState) (t : Nat) : DispState :=
  runTimersTo s.timers.length s t

/-- Modelled from the spec: §4.4 request — allocate the pending slot and
start the timeout before posting. -/
def requestSlot (s : DispState) (id timeout : Nat) : DispState :=
  { s with pending := s.pending ++ [id]
           timers := s.timers ++ [(s.now + timeout, .timeoutT id)] }

/-- Modelled from the spec: §4.4 — the owner of an apply whose exported
function returned a promise delays the set reply until the promise settles,
`delay` from now. -/
def scheduleReply (s : DispState) (id delay : Nat) (v : Value) : DispState :=
  { s with timers := s.timers ++ [(s.now + delay, .deliverT id v)] }

/-- The dispatcher of a fresh useModule client under virtual time. -/
def dispInit : DispState := ⟨0, [], [], []⟩

/-- The default per-request reply deadline when useModule is given no
timeout (§6 recommends 30000 ms). -/
def defaultTimeout : Nat := 30000

/-- C3: Timeout liveness — if the transport never delivers a reply, a request
issued with a timeout of τ milliseconds is rejected with TimeoutError once τ
has elapsed. -/
theorem c3_timeout_liveness (τ t id : Nat) (hle : τ ≤ t) :
    (advanceTo (requestSlot dispInit id τ) t).done
      = [(id, .rejected "TimeoutError")] := by
  simp [advanceTo, requestSlot, dispInit, runTimersTo, earliestDue, takeFirstAt,
    fireTimer, hle]

/-- Witness for C3 at the test's timeout of 1000 ms, elapsed exactly. -/
theorem c3_timeout_liveness_witness :
    (advanceTo (requestSlot dispInit 1 1000) 1000).done
      = [(1, .rejected "TimeoutError")] :=
  c3_timeout_liveness 1000 1000 1 (Nat.le_refl 1000)

/-- C4 (amended): Async transparency — when the exported function's promise
settles (and the delayed set reply is delivered) after delay T strictly
before the configured timeout τ elapses, the request resolves to the settled
value rather than rejecting with TimeoutError: the pending timeout, firing
later or not at all, is a no-op on the already-settled slot. -/
theorem c4_async_transparency (τ T t id : Nat) (v : Value) (hTτ : T < τ)
    (hTt : T ≤ t) :
    (advanceTo (scheduleReply (requestSlot dispInit id τ) id T v) t).done
      = [(id, .resolved v)] := by
  have hne : ¬ τ = T := Nat.ne_of_gt hTτ
  rcases le_or_lt τ t with hτt | hτt
  · simp [advanceTo, scheduleReply, requestSlot, dispInit, runTimersTo, earliestDue,
      takeFirstAt, fireTimer, hτt, hTt, Nat.min_eq_right (Nat.le_of_lt hTτ), hne]
  · simp [advanceTo, scheduleReply, requestSlot, dispInit, runTimersTo, earliestDue,
      takeFirstAt, fireTimer, Nat.not_le.mpr hτt, hTt, hne]

/-- Witness for C4 at the test's scenario: no timeout configured (the 30000 ms
default), promise settling at 2000 ms, fake time advanced to 2000 ms. -/
theorem c4_async_transparency_witness :
    (advanceTo (scheduleReply (requestSlot dispInit 1 defaultTimeout) 1 2000 (.str "ok"))
        2000).done = [(1, .resolved (.str "ok"))] :=
  c4_async_transparency defaultTimeout 2000 2000 1 (.str "ok") (by decide) (Nat.le_refl 2000)

/-- C4 counterexample to the claim as stated: a promise settling at 2000 ms
against a configured timeout of 1000 ms rejects with TimeoutError — the
timeout fires first and the late set reply is dropped — rather than
resolving to the settled value. -/
theorem c4_async_transparency_cx :
    (advanceTo (scheduleReply (requestSlot dispInit 1 1000) 1 2000 (.str "ok")) 2000).done
      = [(1, .rejected "TimeoutError")] := rfl


/-- Witness for C2: a message with wrong scope and source is dropped with no
outbound traffic; a matching get is answered with exactly one reply. -/
theorem c2_no_crosstalk_witness :
    handleMessage 5 (mkServer (some "A") (.str "a") []) (mkClient (some "A") [])
        ⟨1, some "B", "jest", .get 0 []⟩
      = ([], mkServer (some "A") (.str "a") [], mkClient (some "A") []) ∧
    (handleMessage 5 (mkServer (some "A") (.str "a") []) (mkClient (some "A") [])
        ⟨1, some "A", protocolTag, .get 0 []⟩).1.length = 1 :=
  ⟨(c2_no_crosstalk 5 (mkServer (some "A") (.str "a") []) (mkClient (some "A") [])
      ⟨1, some "B", "jest", .get 0 []⟩).1 (by decide),
    (c2_no_crosstalk 5 (mkServer (some "A") (.str "a") []) (mkClient (some "A") [])
      ⟨1, some "A", protocolTag, .get 0 []⟩).2 rfl rfl rfl⟩

/-- Modelled from the spec: a consumer-side RemoteRegistry session (§4.3)
paired with the owning endpoint — the owner, the registry of materialized
handle ids with a local-reachability flag (the weak observation), and the
garbage_collect notices sent so far, in order. -/
structure GcSession where
  server : Endpoint
  reg : List (Nat × Bool)
  gcTrace : List Nat

/-- The observable events of a registry session: the owner marshals a local
function out and the consumer materializes the resulting handle; the local
proxy for a handle becomes unreachable; a collection cycle is observed. -/
inductive GcEvent where
  | expose (fid : Nat)
  | drop (h : Nat)
  | collect

/-- Modelled from the spec: §4.3 materialization — an id whose proxy is
already registered is deduplicated (the existing proxy is returned, and is
live again), otherwise the id is newly registered under weak observation. -/
def regMaterialize (reg : List (Nat × Bool)) (h : Nat) : List (Nat × Bool) :=
  if (reg.map Prod.fst).contains h then
    reg.map (fun p => if p.1 = h then (h, true) else p)
  else reg ++ [(h, true)]

/-- Modelled from the spec: one session step (§4.3).  Exposing allocates (or
reuses) the owner's handle and materializes it; dropping marks the proxy
unreachable; an observed collection cycle emits exactly one garbage_collect
per unreachable registered id, removes those registrations, and the owner
releases the handles (§3: on receiving garbage_collect the entry is
removed), so a later cycle can never emit the same id again. -/
def gcStep (s : GcSession) : GcEvent → GcSession
  | .expose fid =>
      let hs := allocHandle s.server (.fn fid)
      { server := hs.2, reg := regMaterialize s.reg hs.1, gcTrace := s.gcTrace }
  | .drop h =>
      { s with reg := s.reg.map (fun p => if p.1 = h then (h, false) else p) }
  | .collect =>
      let dead := (s.reg.filter (fun p => !p.2)).map Prod.fst
      { server := dead.foldl releaseHandle s.server
        reg := s.reg.filter (fun p => p.2)
        gcTrace := s.gcTrace ++ dead }

/-- A registry session over a list of events, from a fresh owner. -/
def gcRun (scope : Option String) (root : Value) (env : List FnBehavior)
    (evs : List GcEvent) : GcSession :=
  evs.foldl gcStep ⟨mkServer scope root env, [], []⟩

/-- The session invariant: the owner's table is well formed; every id ever
collected is gone from the table, below the allocation cursor, and never
repeated; every registered id is alive in the owner's table; registered ids
are pairwise distinct. -/
def GcInv (s : GcSession) : Prop :=
  TableWf s.server ∧
    (∀ h ∈ s.gcTrace, h ∉ s.server.table.map HandleEntry.id) ∧
    (∀ h ∈ s.gcTrace, h < s.server.nextHandle) ∧
    (∀ p ∈ s.reg, p.1 ∈ s.server.table.map HandleEntry.id) ∧
    (s.reg.map Prod.fst).Nodup ∧
    s.gcTrace.Nodup

theorem release_map_filter (h : Nat) :
    ∀ (l : List HandleEntry), (∀ en ∈ l, en.refs = 1) →
      ((l.map fun en => if en.id = h then { en with refs := en.refs - 1 } else en).filter
          (fun en => en.refs ≠ 0))
        = l.filter (fun en => en.id ≠ h)
  | [], _ => rfl
  | a :: l, hrefs => by
      have ha := hrefs a (List.mem_cons_self a l)
      have ih := release_map_filter h l (fun en hen => hrefs en (List.mem_cons_of_mem a hen))
      by_cases hid : a.id = h
      · simp [hid, ha]
        simpa using ih
      · simp [hid, ha]
        simpa using ih

theorem releaseHandle_table {e : Endpoint} (hrefs : ∀ en ∈ e.table, en.refs = 1)
    (h : Nat) : (releaseHandle e h).table = e.table.filter (fun en => en.id ≠ h) :=
  release_map_filter h e.table hrefs

theorem releaseHandle_wf {e : Endpoint} (hwf : TableWf e) (h : Nat) :
    TableWf (releaseHandle e h) := by
  obtain ⟨hb, hnd, hr⟩ := hwf
  have ht := releaseHandle_table hr h
  refine ⟨?_, ?_, ?_⟩
  · intro en hen
    rw [ht] at hen
    exact hb en (List.mem_of_mem_filter hen)
  · rw [ht]
    exact ((List.filter_sublist _).map HandleEntry.id).nodup hnd
  · intro en hen
    rw [ht] at hen
    exact hr en (List.mem_of_mem_filter hen)

theorem foldl_release_facts (ds : List Nat) : ∀ (e : Endpoint), TableWf e →
    TableWf (ds.foldl releaseHandle e) ∧
      (ds.foldl releaseHandle e).nextHandle = e.nextHandle ∧
      ∀ x, x ∈ (ds.foldl releaseHandle e).table.map HandleEntry.id ↔
        (x ∈ e.table.map HandleEntry.id ∧ x ∉ ds)
  | e, hwf => by
      induction ds generalizing e with
      | nil => exact ⟨hwf, rfl, fun x => by simp⟩
      | cons d ds ih =>
          have hwf' := releaseHandle_wf hwf d
          obtain ⟨h1, h2, h3⟩ := ih (releaseHandle e d) hwf'
          refine ⟨h1, by rw [List.foldl_cons, h2]; rfl, ?_⟩
          intro x
          rw [List.foldl_cons, h3 x]
          rw [releaseHandle_table hwf.2.2 d]
          simp only [List.mem_map, List.mem_filter, List.mem_cons]
          constructor
          · rintro ⟨⟨en, ⟨hen, hne⟩, rfl⟩, hnds⟩
            simp at hne
            exact ⟨⟨en, hen, rfl⟩, by
              rintro (rfl | hxx)
              · exact hne rfl
              · exact hnds hxx⟩
          · rintro ⟨⟨en, hen, rfl⟩, hnotin⟩
            refine ⟨⟨en, ⟨hen, by simp; intro hh; exact hnotin (Or.inl hh)⟩, rfl⟩, ?_⟩
            intro hxx
            exact hnotin (Or.inr hxx)



theorem allocHandle_mem_ids {e : Endpoint} (tgt : HTarget) (hwf : TableWf e) :
    (allocHandle e tgt).1 ∈ (allocHandle e tgt).2.table.map HandleEntry.id := by
  obtain ⟨en, hen, hid, _⟩ := resolveHandle_mem (allocHandle_resolves tgt hwf)
  exact hid ▸ List.mem_map_of_mem HandleEntry.id hen

theorem allocHandle_ids_superset {e : Endpoint} (tgt : HTarget) :
    ∀ x ∈ e.table.map HandleEntry.id,
      x ∈ (allocHandle e tgt).2.table.map HandleEntry.id := by
  intro x hx
  unfold allocHandle
  cases findHandle e.table tgt with
  | some h => exact hx
  | none => simp only [List.map_cons]; exact List.mem_cons_of_mem _ hx

theorem allocHandle_ids_subset {e : Endpoint} (tgt : HTarget) :
    ∀ x ∈ (allocHandle e tgt).2.table.map HandleEntry.id,
      x ∈ e.table.map HandleEntry.id ∨ x = e.nextHandle := by
  intro x hx
  unfold allocHandle at hx
  cases hf : findHandle e.table tgt with
  | some h => rw [hf] at hx; exact Or.inl hx
  | none =>
      rw [hf] at hx
      simp only [List.map_cons, List.mem_cons] at hx
      rcases hx with rfl | hx
      · exact Or.inr rfl
      · exact Or.inl hx

theorem allocHandle_next_mono {e : Endpoint} (tgt : HTarget) :
    e.nextHandle ≤ (allocHandle e tgt).2.nextHandle := by
  unfold allocHandle
  cases findHandle e.table tgt with
  | some h => exact Nat.le_refl _
  | none => exact Nat.le_succ _

theorem regMaterialize_fst (reg : List (Nat × Bool)) (h : Nat) :
    (regMaterialize reg h).map Prod.fst =
      if (reg.map Prod.fst).contains h then reg.map Prod.fst
      else reg.map Prod.fst ++ [h] := by
  unfold regMaterialize
  split
  · rw [List.map_map]
    refine List.map_congr_left ?_
    intro p _
    by_cases hp : p.1 = h
    · simp [hp]
    · simp [hp]
  · simp

theorem mapFlag_fst (reg : List (Nat × Bool)) (h : Nat) (b : Bool) :
    (reg.map (fun p => if p.1 = h then (h, b) else p)).map Prod.fst
      = reg.map Prod.fst := by
  rw [List.map_map]
  refine List.map_congr_left ?_
  intro p _
  by_cases hp : p.1 = h
  · simp [hp]
  · simp [hp]



theorem gcStep_inv {s : GcSession} (hinv : GcInv s) (ev : GcEvent) :
    GcInv (gcStep s ev) := by
  obtain ⟨hwf, ha, hb, hc, hf, he⟩ := hinv
  cases ev with
  | expose fid =>
      refine ⟨allocHandle_wf _ hwf, ?_, ?_, ?_, ?_, he⟩
      · intro h hh himem
        rcases allocHandle_ids_subset (.fn fid) _ himem with hmem | heq
        · exact ha h hh hmem
        · refine absurd (hb h hh) ?_
          rw [heq]
          exact lt_irrefl _
      · intro h hh
        exact Nat.lt_of_lt_of_le (hb h hh) (allocHandle_next_mono _)
      · intro p hp
        simp only [gcStep, regMaterialize] at hp ⊢
        split at hp
        · rcases List.mem_map.mp hp with ⟨q, hq, rfl⟩
          have hfst : (if q.1 = (allocHandle s.server (.fn fid)).1
              then ((allocHandle s.server (.fn fid)).1, true) else q).1 = q.1 := by
            by_cases hq1 : q.1 = (allocHandle s.server (.fn fid)).1 <;> simp [hq1]
          rw [hfst]
          exact allocHandle_ids_superset _ _ (hc q hq)
        · rcases List.mem_append.mp hp with hp | hp
          · exact allocHandle_ids_superset _ _ (hc p hp)
          · simp only [List.mem_singleton] at hp
            subst hp
            exact allocHandle_mem_ids _ hwf
      · simp only [gcStep]
        rw [regMaterialize_fst]
        split
        · exact hf
        · next hcont =>
            have hnm : (allocHandle s.server (.fn fid)).1 ∉ s.reg.map Prod.fst := by
              simpa using hcont
            simp [List.nodup_append, hf, hnm]
  | drop h =>
      refine ⟨hwf, ha, hb, ?_, ?_, he⟩
      · intro p hp
        simp only [gcStep] at hp
        rcases List.mem_map.mp hp with ⟨q, hq, rfl⟩
        have hfst : (if q.1 = h then (h, false) else q).1 = q.1 := by
          by_cases hq1 : q.1 = h <;> simp [hq1]
        rw [hfst]
        exact hc q hq
      · simp only [gcStep]
        rw [mapFlag_fst]
        exact hf
  | collect =>
      obtain ⟨hwf', hnext', hids'⟩ :=
        foldl_release_facts ((s.reg.filter (fun p => !p.2)).map Prod.fst) s.server hwf
      have hdead_tbl : ∀ x ∈ (s.reg.filter (fun p => !p.2)).map Prod.fst,
          x ∈ s.server.table.map HandleEntry.id := by
        intro x hx
        rcases List.mem_map.mp hx with ⟨q, hq, rfl⟩
        exact hc q (List.mem_of_mem_filter hq)
      have hdead_nd : ((s.reg.filter (fun p => !p.2)).map Prod.fst).Nodup :=
        ((List.filter_sublist _).map Prod.fst).nodup hf
      refine ⟨hwf', ?_, ?_, ?_, ?_, ?_⟩
      · intro h hh
        simp only [gcStep] at hh ⊢
        rw [hids' h]
        rcases List.mem_append.mp hh with hh | hh
        · rintro ⟨hmem, -⟩
          exact ha h hh hmem
        · rintro ⟨-, hnd⟩
          exact hnd hh
      · intro h hh
        simp only [gcStep] at hh ⊢
        rw [hnext']
        rcases List.mem_append.mp hh with hh | hh
        · exact hb h hh
        · rcases List.mem_map.mp hh with ⟨q, hq, rfl⟩
          obtain ⟨en, hen, hid⟩ := List.mem_map.mp (hc q (List.mem_of_mem_filter hq))
          rw [← hid]
          exact hwf.1 en hen
      · intro p hp
        simp only [gcStep] at hp ⊢
        have hpr := List.mem_of_mem_filter hp
        have hpt : p.2 = true := by simpa using List.of_mem_filter hp
        rw [hids' p.1]
        refine ⟨hc p hpr, ?_⟩
        intro hpd
        rcases List.mem_map.mp hpd with ⟨q, hq, hq1⟩
        have hqr := List.mem_of_mem_filter hq
        have hqf : q.2 = false := by simpa using List.of_mem_filter hq
        have hpq : q = p := List.inj_on_of_nodup_map hf hqr hpr hq1
        rw [hpq, hpt] at hqf
        cases hqf
      · simp only [gcStep]
        exact ((List.filter_sublist _).map Prod.fst).nodup hf
      · simp only [gcStep]
        refine he.append hdead_nd ?_
        intro x hx hxd
        exact ha x hx (hdead_tbl x hxd)

theorem gcRun_inv (scope : Option String) (root : Value) (env : List FnBehavior)
    (evs : List GcEvent) : GcInv (gcRun scope root env evs) := by
  have hstep : ∀ (l : List GcEvent) (s : GcSession), GcInv s → GcInv (l.foldl gcStep s) := by
    intro l
    induction l with
    | nil => exact fun s hs => hs
    | cons ev l ih => exact fun s hs => ih _ (gcStep_inv hs ev)
  refine hstep evs _ ⟨mkServer_wf scope root env, ?_, ?_, ?_, ?_, ?_⟩ <;> simp [mkServer]



/-- C5: GC correctness — over every registry session: a handle whose proxy is
still reachable has never had a garbage_collect emitted; at most one
garbage_collect is ever sent per handle id across the session; and a
registered handle whose proxy is unreachable has its garbage_collect emitted
at the next observed collection cycle.  Moreover, in the scenario of the test
"transferred functions are garbage collected" (expose the inner function,
observe a cycle with the proxy live, drop it, observe a cycle, use the module
again): exactly one garbage_collect is sent, for handle 1, and over the wire
pipeline the owner releases handle 1 on receiving the notice with no reply,
a fresh proxy at the same remote path materializes under the never-reused
fresh handle 2, and invoking it still resolves to "🥸". -/
theorem c5_gc_correctness (scope : Option String) (root : Value)
    (env : List FnBehavior) (evs : List GcEvent) :
    (∀ h, (gcRun scope root env evs).gcTrace.count h ≤ 1) ∧
    (∀ h, (h, true) ∈ (gcRun scope root env evs).reg →
        h ∉ (gcRun scope root env evs).gcTrace) ∧
    (∀ h, (h, false) ∈ (gcRun scope root env evs).reg →
        h ∈ (gcStep (gcRun scope root env evs) .collect).gcTrace) ∧
    (gcRun none (.func 0) [.const (.func 1), .const (.str "🥸")]
        [.expose 1, .collect, .drop 1, .collect, .expose 1]).gcTrace = [1] ∧
    (gcRun none (.func 0) [.const (.func 1), .const (.str "🥸")]
        [.expose 1, .collect, .drop 1, .collect, .expose 1]).reg = [(2, true)] ∧
    (callProxy 10 (mkClient none [])
        (mkServer none (.func 0) [.const (.func 1), .const (.str "🥸")]) 1 rootProxy
        []).map (fun r => (r.1, r.2.2.table)) =
      some (.remoteFunc 1, [⟨1, .fn 1, 1⟩]) ∧
    (handleMessage 10 (⟨none, .func 0, [.const (.func 1), .const (.str "🥸")],
        [⟨1, .fn 1, 1⟩], 2, [(0, [])]⟩ : Endpoint) (mkClient none [])
        ⟨2, none, protocolTag, .garbageCollect 1⟩).1 = [] ∧
    (handleMessage 10 (⟨none, .func 0, [.const (.func 1), .const (.str "🥸")],
        [⟨1, .fn 1, 1⟩], 2, [(0, [])]⟩ : Endpoint) (mkClient none [])
        ⟨2, none, protocolTag, .garbageCollect 1⟩).2.1.table = [] ∧
    (callProxy 10 (mkClient none []) (⟨none, .func 0,
        [.const (.func 1), .const (.str "🥸")], [], 2, [(0, [])]⟩ : Endpoint) 3
        rootProxy []).map (fun r => (r.1, r.2.2.table)) =
      some (.remoteFunc 2, [⟨2, .fn 1, 1⟩]) ∧
    (callProxy 10 (mkClient none []) (⟨none, .func 0,
        [.const (.func 1), .const (.str "🥸")], [⟨2, .fn 1, 1⟩], 3,
        [(0, []), (0, [])]⟩ : Endpoint) 4 ⟨2, []⟩ []).map (fun r => r.1) =
      some (.str "🥸") := by
  obtain ⟨hwf, ha, hb, hc, hf, he⟩ := gcRun_inv scope root env evs
  refine ⟨?_, ?_, ?_, rfl, rfl, rfl, rfl, rfl, rfl, rfl⟩
  · exact fun h => List.nodup_iff_count_le_one.mp he h
  · intro h hmem htr
    exact ha h htr (hc (h, true) hmem)
  · intro h hmem
    simp only [gcStep]
    refine List.mem_append.mpr (Or.inr ?_)
    exact List.mem_map.mpr ⟨(h, false), List.mem_filter.mpr ⟨hmem, rfl⟩, rfl⟩

/-- Witness for C5: the session of the gc test — handle 1 collected at most
(and exactly) once, the revived handle 2 never collected, and an unreachable
registered handle collected at the next cycle. -/
theorem c5_gc_correctness_witness :
    (gcRun none (.func 0) [.const (.func 1), .const (.str "🥸")]
        [.expose 1, .collect, .drop 1, .collect, .expose 1]).gcTrace.count 1 ≤ 1 ∧
    (2 : Nat) ∉ (gcRun none (.func 0) [.const (.func 1), .const (.str "🥸")]
        [.expose 1, .collect, .drop 1, .collect, .expose 1]).gcTrace ∧
    (1 : Nat) ∈ (gcStep (gcRun none (.func 0) [.const (.func 1), .const (.str "🥸")]
        [.expose 1, .drop 1]) .collect).gcTrace :=
  ⟨(c5_gc_correctness none (.func 0) [.const (.func 1), .const (.str "🥸")]
      [.expose 1, .collect, .drop 1, .collect, .expose 1]).1 1,
    (c5_gc_correctness none (.func 0) [.const (.func 1), .const (.str "🥸")]
      [.expose 1, .collect, .drop 1, .collect, .expose 1]).2.1 2 (by decide),
    (c5_gc_correctness none (.func 0) [.const (.func 1), .const (.str "🥸")]
      [.expose 1, .drop 1]).2.2.1 1 (by decide)⟩


end Transporter
